import Mathlib

/-!
Verification of the email-aggregation parser core
(`src/email_agent/email_parser.py`).

The Python source is shallowly embedded: strings are Lean `String`s
(sequences of Unicode scalar values, as in Python 3), byte strings are
`List Nat` with entries below 256, dictionaries with string keys are
association lists built with an insert-or-overwrite operation mirroring
Python `dict` assignment, and functions that may raise are given
`Except`-valued embeddings with the `try/except` blocks of the source
translated to explicit matches.  The two external callables the parser
object holds (the `html2text` converter and the standard library date
parser) are fields of the `EmailParser` structure, quantified over in
the theorems; everything else is translated concretely from the source
and from the documented CPython semantics of the library calls it makes
(`base64.urlsafe_b64decode`, `bytes.decode('utf-8', errors='ignore')`,
`str.split`, `str.strip`, `str.lower`, `re`).
-/

namespace EmailAgent

/-- Python `str.lower` restricted to ASCII letters (all inputs exercised
by the parser are ASCII header names). -/
def pyLower (s : String) : String :=
  String.mk (s.data.map (fun c =>
    if 65 ≤ c.toNat && c.toNat ≤ 90 then Char.ofNat (c.toNat + 32) else c))

/-- The characters Python `str.split()` and `\s` treat as whitespace, in
the ASCII range: space, tab, newline, vertical tab, form feed, carriage
return. -/
def isPyWs (c : Char) : Bool :=
  c.toNat = 32 || c.toNat = 9 || c.toNat = 10 || c.toNat = 11 ||
  c.toNat = 12 || c.toNat = 13

/-- Python `dict` assignment `d[k] = v`: overwrite in place when the key
exists, append otherwise. -/
def dictInsert : List (String × String) → String → String → List (String × String)
  | [], k, v => [(k, v)]
  | (k0, v0) :: rest, k, v =>
    if k0 = k then (k0, v) :: rest else (k0, v0) :: dictInsert rest k v

/-- Python `d.get(k)`: the value stored at key `k`, if any. -/
def dictGet (d : List (String × String)) (k : String) : Option String :=
  (d.find? (fun e => e.1 == k)).map (fun e => e.2)

/-- Value of a character in the standard base64 alphabet, as looked up by
CPython `binascii.a2b_base64`. -/
def b64DigitVal (c : Char) : Option Nat :=
  if 65 ≤ c.toNat && c.toNat ≤ 90 then some (c.toNat - 65)
  else if 97 ≤ c.toNat && c.toNat ≤ 122 then some (c.toNat - 71)
  else if 48 ≤ c.toNat && c.toNat ≤ 57 then some (c.toNat + 4)
  else if c = '+' then some 62
  else if c = '/' then some 63
  else none

/-- The URL-safe base64 alphabet used by `base64.urlsafe_b64encode`. -/
def b64UrlAlphabet : List Char :=
  "ABCDEFGHIJKLMNOPQRSTUVWXYZabcdefghijklmnopqrstuvwxyz0123456789-_".data

/-- Character for a 6-bit value in the URL-safe base64 alphabet. -/
def b64CharUrl (n : Nat) : Char := b64UrlAlphabet.getD n '?'

/-- `base64.urlsafe_b64encode` on a byte string: emit four alphabet
characters per three bytes, padding the final group with `=`. -/
def urlsafeB64encode : List Nat → List Char
  | [] => []
  | [a] => [b64CharUrl (a / 4), b64CharUrl (a % 4 * 16), '=', '=']
  | [a, b] =>
    [b64CharUrl (a / 4), b64CharUrl (a % 4 * 16 + b / 16), b64CharUrl (b % 16 * 4), '=']
  | a :: b :: c :: rest =>
    b64CharUrl (a / 4) :: b64CharUrl (a % 4 * 16 + b / 16) ::
    b64CharUrl (b % 16 * 4 + c / 64) :: b64CharUrl (c % 64) :: urlsafeB64encode rest

/-- Core loop of CPython `binascii.a2b_base64` in non-strict mode: bytes
are emitted eagerly as the second, third and fourth digit of each quad
arrive; characters outside the alphabet are skipped; a pad character is
ignored at quad position 0 or 1, and at quad position 2 or 3 it ends the
input once enough pads have accumulated to complete the quad; leftover
digits at the end of input are an error (one leftover digit and two or
three leftover digits produce distinct messages). -/
def a2bBase64Go : List Char → Nat → Nat → Nat → List Nat → Except String (List Nat)
  | [], quadPos, _, _, acc =>
    if quadPos = 0 then .ok acc.reverse
    else if quadPos = 1 then .error "invalid number of data characters"
    else .error "incorrect padding"
  | ch :: rest, quadPos, left, pads, acc =>
    if ch = '=' then
      if 2 ≤ quadPos then
        if 4 ≤ quadPos + (pads + 1) then .ok acc.reverse
        else a2bBase64Go rest quadPos left (pads + 1) acc
      else a2bBase64Go rest quadPos left pads acc
    else
      match b64DigitVal ch with
      | none => a2bBase64Go rest quadPos left pads acc
      | some d =>
        match quadPos with
        | 0 => a2bBase64Go rest 1 d 0 acc
        | 1 => a2bBase64Go rest 2 (d % 16) 0 ((left * 4 + d / 16) :: acc)
        | 2 => a2bBase64Go rest 3 (d % 4) 0 ((left * 16 + d / 4) :: acc)
        | _ => a2bBase64Go rest 0 0 0 ((left * 64 + d) :: acc)

/-- The byte translation `urlsafe_b64decode` applies before decoding:
`-` becomes `+` and `_` becomes `/`. -/
def b64Translate (c : Char) : Char :=
  if c = '-' then '+' else if c = '_' then '/' else c

/-- `base64.urlsafe_b64decode` on a `str` argument: encode as ASCII
(raising on any character above 127), translate `-` to `+` and `_` to
`/`, then run the non-strict base64 decoder. -/
def urlsafeB64decode (s : String) : Except String (List Nat) :=
  if s.data.all (fun c => c.toNat ≤ 127) then
    a2bBase64Go (s.data.map b64Translate) 0 0 0 []
  else .error "string argument should contain only ASCII characters"

/-- True for UTF-8 continuation bytes. -/
def isCont (b : Nat) : Bool := 128 ≤ b && b ≤ 191

/-- CPython `bytes.decode('utf-8', errors='ignore')`, producing the list
of decoded code points: strict UTF-8 (overlong forms, surrogates and
values above U+10FFFF rejected via the per-lead ranges of the first
continuation byte), with invalid input handled by skipping the maximal
valid subpart (the lead plus any continuation bytes already accepted)
and resuming at the offending byte, and with a truncated final sequence
dropped. -/
def utf8DecodeIgnore : List Nat → List Nat
  | [] => []
  | b :: rest =>
    if b ≤ 127 then b :: utf8DecodeIgnore rest
    else if 194 ≤ b && b ≤ 223 then
      match rest with
      | [] => []
      | b1 :: r1 =>
        if isCont b1 then ((b - 192) * 64 + (b1 - 128)) :: utf8DecodeIgnore r1
        else utf8DecodeIgnore (b1 :: r1)
    else if 224 ≤ b && b ≤ 239 then
      match rest with
      | [] => []
      | b1 :: r1 =>
        if (if b = 224 then 160 ≤ b1 && b1 ≤ 191
            else if b = 237 then 128 ≤ b1 && b1 ≤ 159
            else isCont b1) then
          match r1 with
          | [] => []
          | b2 :: r2 =>
            if isCont b2 then
              ((b - 224) * 4096 + (b1 - 128) * 64 + (b2 - 128)) :: utf8DecodeIgnore r2
            else utf8DecodeIgnore (b2 :: r2)
        else utf8DecodeIgnore (b1 :: r1)
    else if 240 ≤ b && b ≤ 244 then
      match rest with
      | [] => []
      | b1 :: r1 =>
        if (if b = 240 then 144 ≤ b1 && b1 ≤ 191
            else if b = 244 then 128 ≤ b1 && b1 ≤ 143
            else isCont b1) then
          match r1 with
          | [] => []
          | b2 :: r2 =>
            if isCont b2 then
              match r2 with
              | [] => []
              | b3 :: r3 =>
                if isCont b3 then
                  ((b - 240) * 262144 + (b1 - 128) * 4096 + (b2 - 128) * 64 +
                    (b3 - 128)) :: utf8DecodeIgnore r3
                else utf8DecodeIgnore (b3 :: r3)
            else utf8DecodeIgnore (b2 :: r2)
        else utf8DecodeIgnore (b1 :: r1)
    else utf8DecodeIgnore rest

/-- UTF-8 encoding of one Unicode scalar value. -/
def utf8EncodeCp (n : Nat) : List Nat :=
  if n ≤ 127 then [n]
  else if n ≤ 2047 then [192 + n / 64, 128 + n % 64]
  else if n ≤ 65535 then [224 + n / 4096, 128 + n / 64 % 64, 128 + n % 64]
  else [240 + n / 262144, 128 + n / 4096 % 64, 128 + n / 64 % 64, 128 + n % 64]

/-- UTF-8 encoding of a string (Python `str.encode('utf-8')`). -/
def utf8Encode (s : String) : List Nat :=
  (s.data.map (fun c => utf8EncodeCp c.toNat)).flatten

/-- A Gmail API part dictionary as consumed by the parser.  Each field
models the presence or absence of the corresponding key: `mimeType` is
the optional string under `'mimeType'`; `body` is `some d?` when the
`'body'` key is present, with `d?` the optional string under its
`'data'` key; `parts` is the optional list under `'parts'`; `headers`
is the list under `'headers'` (a missing key behaves as the empty list,
the only way `parse_message` consumes it).  Each header entry is a pair
of the optional strings under `'name'` and `'value'`. -/
inductive PartNode : Type where
  | mk (mimeType : Option String) (body : Option (Option String))
       (parts : Option (List PartNode))
       (headers : List (Option String × Option String))
deriving Repr

/-- A Gmail API message dictionary: optional `id`, `threadId`, `snippet`
and `payload` keys. -/
structure Message where
  id : Option String
  threadId : Option String
  snippet : Option String
  payload : Option PartNode
deriving Repr

/-- The header list `parse_message` reads from a message: the list under
the payload's `'headers'` key, with a missing payload behaving as an
empty dictionary. -/
def Message.headersList (m : Message) : List (Option String × Option String) :=
  match m.payload.getD (.mk none none none []) with
  | .mk _ _ _ hs => hs

/-- The dictionary returned by `EmailParser.parse_message`. -/
structure Record where
  id : String
  thread_id : String
  subject : String
  sender : String
  toAddr : String
  date : String
  body : String
  snippet : String
deriving Repr, DecidableEq

/-- The dictionary returned by `EmailParser.calculate_metadata`. -/
structure Metadata where
  word_count : Nat
  char_count : Nat
  has_attachments : Bool
  url_count : Nat
  estimated_read_time_minutes : Nat
deriving Repr, DecidableEq

/-- The parser object.  Its two fields model the external callables the
source delegates to: `html_converter` is `html2text.HTML2Text().handle`
(an error value standing for a raised exception), and
`parsedate_to_datetime` is the standard library RFC-5322 date parser
with the resulting datetime represented by its `isoformat()` string. -/
structure EmailParser where
  html_converter : String → Except Unit String
  parsedate_to_datetime : String → Except Unit String

namespace EmailParser

/-- `EmailParser.decode_body`: URL-safe base64 decode inside a
`try/except` that returns the empty string on any exception, then UTF-8
decode with `errors='ignore'` (which never raises). -/
def decode_body (encoded_body : String) : String :=
  match urlsafeB64decode encoded_body with
  | .ok bytes => String.mk ((utf8DecodeIgnore bytes).map Char.ofNat)
  | .error _ => ""

/-- `EmailParser.clean_html`: apply the HTML-to-text converter inside a
`try/except` that returns the input HTML unchanged on any exception. -/
def clean_html (p : EmailParser) (html_content : String) : String :=
  match p.html_converter html_content with
  | .ok text => text
  | .error _ => html_content

/-- `EmailParser.parse_date`: apply `parsedate_to_datetime` inside a
`try/except` that returns `None` on any exception. -/
def parse_date (p : EmailParser) (date_str : String) : Option String :=
  match p.parsedate_to_datetime date_str with
  | .ok d => some d
  | .error _ => none

/-- Loop body of `EmailParser._extract_from_parts`: the list of strings
appended to `texts`, one entry per part that contributes.  A part with a
`'parts'` key recurses into its children (and skips everything else); a
leaf of mime type `text/plain` or `text/html` with a `'data'` key under
`'body'` contributes its decoded (and for HTML, converted) body; any
other part appends nothing. -/
def collectTexts (p : EmailParser) : List PartNode → List String
  | [] => []
  | .mk mimeType body parts _ :: rest =>
    match parts with
    | some children =>
      String.intercalate "\n\n" ((collectTexts p children).filter (fun t => t ≠ "")) ::
        collectTexts p rest
    | none =>
      let mime := mimeType.getD ""
      if mime = "text/plain" ∨ mime = "text/html" then
        match body with
        | some (some d) =>
          (if mime = "text/html" then p.clean_html (decode_body d) else decode_body d) ::
            collectTexts p rest
        | _ => collectTexts p rest
      else collectTexts p rest

/-- `EmailParser._extract_from_parts`: join the non-empty collected
texts with a blank line (`'\n\n'.join(filter(None, texts))`). -/
def extract_from_parts (p : EmailParser) (parts : List PartNode) : String :=
  String.intercalate "\n\n" ((collectTexts p parts).filter (fun t => t ≠ ""))

/-- `EmailParser.extract_body`: if the payload has a `'body'` key with a
`'data'` key holding a non-empty string, return it decoded; otherwise
recurse into `'parts'` when present; otherwise return the empty
string. -/
def extract_body (p : EmailParser) : PartNode → String
  | .mk _ body parts _ =>
    let fromParts := match parts with
      | some l => extract_from_parts p l
      | none => ""
    match body with
    | some (some d) => if d = "" then fromParts else decode_body d
    | _ => fromParts

/-- `EmailParser.extract_headers`: fold the header list into a dict,
lower-casing each name and overwriting on collision; a missing `'name'`
or `'value'` key defaults to the empty string. -/
def extract_headers (headers : List (Option String × Option String)) :
    List (String × String) :=
  headers.foldl (fun d h => dictInsert d (pyLower (h.1.getD "")) (h.2.getD "")) []

/-- `EmailParser.parse_message`: assemble the normalized record from the
message dictionary, with the documented defaults for each field. -/
def parse_message (p : EmailParser) (message : Message) : Record :=
  let payload := message.payload.getD (.mk none none none [])
  let headers := extract_headers (match payload with | .mk _ _ _ hs => hs)
  let body := extract_body p payload
  let date_str := (dictGet headers "date").getD ""
  let parsed_date := if date_str = "" then none else p.parse_date date_str
  { id := message.id.getD ""
    thread_id := message.threadId.getD ""
    subject := (dictGet headers "subject").getD "No Subject"
    sender := (dictGet headers "from").getD "Unknown"
    toAddr := (dictGet headers "to").getD ""
    date := parsed_date.getD ""
    body := body
    snippet := message.snippet.getD "" }

end EmailParser

/-- Python `str.split()` with no separator: split on runs of whitespace,
dropping empty pieces. -/
def pySplit : List Char → List (List Char)
  | [] => []
  | c :: rest =>
    if isPyWs c then pySplit rest
    else (c :: rest.takeWhile (fun x => !isPyWs x)) ::
      pySplit (rest.dropWhile (fun x => !isPyWs x))
termination_by l => l.length
decreasing_by
  · simp only [List.length_cons]; omega
  · have := (List.dropWhile_sublist (l := rest) (fun x => !isPyWs x)).length_le
    simp only [List.length_cons]; omega

/-- A character the URL regular expression accepts after the scheme:
anything that is not whitespace and not one of the explicitly excluded
delimiter characters (the class written in the source as angle brackets,
double quote, braces, pipe, backslash, caret, backquote and square
brackets, given here by code point). -/
def isUrlChar (c : Char) : Bool :=
  !isPyWs c && !([60, 62, 34, 123, 125, 124, 92, 94, 96, 91, 93].contains c.toNat)

namespace EmailParser

/-- `EmailParser.extract_urls`: all non-overlapping matches of the URL
pattern, scanning left to right; at each position the scheme `http`
with an optional `s` and `://` must match, followed by at least one
accepted character taken greedily, else the scan advances one
character. -/
def extract_urls : List Char → List (List Char)
  | [] => []
  | 'h' :: 't' :: 't' :: 'p' :: 's' :: ':' :: '/' :: '/' :: m =>
    let u := m.takeWhile isUrlChar
    if u = [] then extract_urls ('t' :: 't' :: 'p' :: 's' :: ':' :: '/' :: '/' :: m)
    else (('h' :: 't' :: 't' :: 'p' :: 's' :: ':' :: '/' :: '/' :: []) ++ u) ::
      extract_urls (m.dropWhile isUrlChar)
  | 'h' :: 't' :: 't' :: 'p' :: ':' :: '/' :: '/' :: m =>
    let u := m.takeWhile isUrlChar
    if u = [] then extract_urls ('t' :: 't' :: 'p' :: ':' :: '/' :: '/' :: m)
    else (('h' :: 't' :: 't' :: 'p' :: ':' :: '/' :: '/' :: []) ++ u) ::
      extract_urls (m.dropWhile isUrlChar)
  | _ :: rest => extract_urls rest
termination_by l => l.length
decreasing_by
  all_goals simp only [List.length_cons]
  · omega
  · have := (List.dropWhile_sublist (l := m) isUrlChar).length_le
    omega
  · omega
  · have := (List.dropWhile_sublist (l := m) isUrlChar).length_le
    omega
  · omega

/-- `EmailParser.calculate_metadata`: word count by whitespace split,
character count, a hardcoded false attachment flag, URL count, and a
reading time of `max(1, word_count // 200)`. -/
def calculate_metadata (parsed_email : Record) : Metadata :=
  let body := parsed_email.body
  let words := pySplit body.data
  { word_count := words.length
    char_count := body.length
    has_attachments := false
    url_count := (extract_urls body.data).length
    estimated_read_time_minutes := max 1 (words.length / 200) }

/-- The lazy scan of `re.match` for the anchored pattern used by
`extract_sender_name` (one or more non-newline characters, as few as
possible, then optional whitespace, then a literal `<`): consume one
character at a time, failing on a newline, and after each consumed
character succeed with the group so far if the remainder starts with
whitespace followed by `<`. -/
def senderNameGo : List Char → List Char → Option (List Char)
  | _, [] => none
  | acc, c :: rest =>
    if c.toNat = 10 then none
    else if (rest.dropWhile isPyWs).head? = some '<' then some (acc ++ [c])
    else senderNameGo (acc ++ [c]) rest

/-- Python `str.strip` with a single given character: remove every copy
of it from both ends. -/
def pyStripChar (q : Char) (l : List Char) : List Char :=
  ((l.dropWhile (fun c => c = q)).reverse.dropWhile (fun c => c = q)).reverse

/-- `EmailParser.extract_sender_name`: when the anchored pattern
matches, the first group with surrounding double quotes stripped,
otherwise the whole sender string. -/
def extract_sender_name (sender : String) : String :=
  match senderNameGo [] sender.data with
  | some g => String.mk (pyStripChar '"' g)
  | none => sender

/-- The string a single part contributes to the texts accumulated by
`_extract_from_parts`, with the empty string standing for a part the
loop appends nothing for (unrecognized mime type, or no body data): a
part with children contributes their joined extraction, a `text/plain`
leaf with data its decoded body, a `text/html` leaf with data its
decoded body run through the HTML converter. -/
def partText (p : EmailParser) : PartNode → String
  | .mk mimeType body parts _ =>
    match parts with
    | some children => extract_from_parts p children
    | none =>
      let mime := mimeType.getD ""
      if mime = "text/plain" ∨ mime = "text/html" then
        match body with
        | some (some d) =>
          if mime = "text/html" then p.clean_html (decode_body d) else decode_body d
        | _ => ""
      else ""

end EmailParser

/-- Trailing-whitespace removal (the effect of the greedy `\s*` between
the lazy group and the literal `<` in the sender-name pattern). -/
def pyRStrip (l : List Char) : List Char :=
  (l.reverse.dropWhile isPyWs).reverse

/-- A parser object whose external HTML converter always fails and whose
date parser always fails, exercising every fallback path. -/
def pFail : EmailParser :=
  ⟨fun _ => .error (), fun _ => .error ()⟩

/-- A parser object whose external HTML converter succeeds and returns a
marked transformation of its input, and whose date parser succeeds with
a fixed ISO timestamp. -/
def pConv : EmailParser :=
  ⟨fun h => .ok ("CONVERTED:" ++ h), fun _ => .ok "2025-11-06T10:00:00-08:00"⟩

open EmailParser

theorem dictGet_cons (k0 v0 : String) (tl : List (String × String)) (k2 : String) :
    dictGet ((k0, v0) :: tl) k2 = if k0 = k2 then some v0 else dictGet tl k2 := by
  by_cases h : k0 = k2
  · subst h; simp [dictGet, List.find?]
  · have hb : (k0 == k2) = false := by simp [h]
    simp [dictGet, List.find?, hb, h]

theorem dictGet_dictInsert (d : List (String × String)) (k v k2 : String) :
    dictGet (dictInsert d k v) k2 = if k = k2 then some v else dictGet d k2 := by
  induction d with
  | nil => rw [show dictInsert [] k v = [(k, v)] from rfl, dictGet_cons]
  | cons hd tl ih =>
    obtain ⟨k0, v0⟩ := hd
    by_cases h0 : k0 = k
    · subst h0
      rw [show dictInsert ((k0, v0) :: tl) k0 v = (k0, v) :: tl from by
            simp [dictInsert],
          dictGet_cons]
      by_cases h : k0 = k2
      · rw [if_pos h, if_pos h]
      · rw [if_neg h, if_neg h, dictGet_cons, if_neg h]
    · rw [show dictInsert ((k0, v0) :: tl) k v = (k0, v0) :: dictInsert tl k v from by
            simp [dictInsert, h0],
          dictGet_cons, ih, dictGet_cons]
      by_cases h : k0 = k2
      · subst h
        rw [if_pos rfl, if_neg (fun hh : k = k0 => h0 hh.symm), if_pos rfl]
      · rw [if_neg h]
        by_cases hk : k = k2
        · rw [if_pos hk, if_pos hk]
        · rw [if_neg hk, if_neg hk, if_neg h]

theorem dictGet_foldl_headers (k : String)
    (hs : List (Option String × Option String)) :
    ∀ d, dictGet
        (hs.foldl (fun d h => dictInsert d (pyLower (h.1.getD "")) (h.2.getD "")) d) k
      = match hs.reverse.find? (fun h => pyLower (h.1.getD "") == k) with
        | some h => some (h.2.getD "")
        | none => dictGet d k := by
  induction hs with
  | nil => intro d; simp
  | cons h t ih =>
    intro d
    simp only [List.foldl_cons, List.reverse_cons, List.find?_append]
    rw [ih]
    cases hfind : t.reverse.find? (fun h => pyLower (h.1.getD "") == k) with
    | some x => simp
    | none =>
      simp only [Option.none_or]
      rw [dictGet_dictInsert]
      by_cases hp : pyLower (h.1.getD "") = k
      · simp [List.find?, hp]
      · rw [if_neg hp]
        have hb : (pyLower (h.1.getD "") == k) = false := by simp [hp]
        simp [List.find?, hb]

/-- C6: `extract_headers` builds its dictionary by iterating the header
pairs in input order, lower-casing each name and overwriting on
collision, so looking up any key returns the value of the last pair
whose lower-cased name equals it; in particular the Subject/subject
example collapses to the single entry mapping subject to B. -/
theorem extract_headers_last_occurrence_wins :
    (∀ (hs : List (Option String × Option String)) (k : String),
      dictGet (extract_headers hs) k
        = (hs.reverse.find? (fun h => pyLower (h.1.getD "") == k)).map
            (fun h => h.2.getD "")) ∧
    extract_headers [(some "Subject", some "A"), (some "subject", some "B")]
      = [("subject", "B")] := by
  refine ⟨fun hs k => ?_, by decide⟩
  rw [show extract_headers hs
        = hs.foldl (fun d h => dictInsert d (pyLower (h.1.getD "")) (h.2.getD "")) []
      from rfl,
    dictGet_foldl_headers]
  cases hfind : hs.reverse.find? (fun h => pyLower (h.1.getD "") == k) with
  | some x => simp
  | none => simp [dictGet]

/-- C7: the metadata's estimated reading time is exactly
`max 1 (word_count / 200)` with `word_count` the number of
whitespace-delimited tokens of the body, so it is at least 1 for every
body, and the empty body has word count 0 and reading time 1. -/
theorem calculate_metadata_read_time (r : Record) :
    (calculate_metadata r).estimated_read_time_minutes
      = max 1 ((calculate_metadata r).word_count / 200) ∧
    (calculate_metadata r).word_count = (pySplit r.body.data).length ∧
    1 ≤ (calculate_metadata r).estimated_read_time_minutes ∧
    (calculate_metadata ⟨"", "", "", "", "", "", "", ""⟩).word_count = 0 ∧
    (calculate_metadata ⟨"", "", "", "", "", "", "", ""⟩).estimated_read_time_minutes
      = 1 :=
  ⟨rfl, rfl, Nat.le_max_left 1 _, by simp [calculate_metadata, pySplit],
    by simp [calculate_metadata, pySplit]⟩

theorem collectTexts_cons_cases (p : EmailParser) (hd : PartNode)
    (rest : List PartNode) :
    collectTexts p (hd :: rest) = partText p hd :: collectTexts p rest ∨
    (collectTexts p (hd :: rest) = collectTexts p rest ∧ partText p hd = "") := by
  obtain ⟨mime, body, parts, hdrs⟩ := hd
  cases parts with
  | some children =>
    left
    rw [collectTexts.eq_2]
    rfl
  | none =>
    cases body with
    | some od =>
      cases od with
      | some d =>
        by_cases hm : mime.getD "" = "text/plain" ∨ mime.getD "" = "text/html"
        · left
          rw [collectTexts.eq_3, if_pos hm,
            show partText p (.mk mime (some (some d)) none hdrs)
                = if mime.getD "" = "text/html" then p.clean_html (decode_body d)
                  else decode_body d
              from by simp [partText, if_pos hm]]
        · right
          exact ⟨by rw [collectTexts.eq_3, if_neg hm], by simp [partText, if_neg hm]⟩
      | none =>
        right
        refine ⟨?_, by simp [partText]⟩
        rw [collectTexts.eq_4 p mime (some none) hdrs rest
          (by intro d h; simp at h), ite_self]
    | none =>
      right
      refine ⟨?_, by simp [partText]⟩
      rw [collectTexts.eq_4 p mime none hdrs rest
        (by intro d h; simp at h), ite_self]

theorem collectTexts_filter_eq (p : EmailParser) (l : List PartNode) :
    (collectTexts p l).filter (fun t => t ≠ "")
      = (l.map (partText p)).filter (fun t => t ≠ "") := by
  induction l with
  | nil => simp [collectTexts.eq_1]
  | cons hd rest ih =>
    rcases collectTexts_cons_cases p hd rest with h | ⟨h, hpt⟩
    · rw [h, List.map_cons]
      simp only [List.filter_cons, ih]
    · rw [h, List.map_cons, List.filter_cons, hpt]
      simpa using ih

/-- C5: `_extract_from_parts` joins exactly the non-empty per-child
results, in the order the children are given, with a blank-line
separator, and the container whose children yield A, the empty string
and B extracts to A, blank line, B. -/
theorem extract_from_parts_join_nonempty :
    (∀ (p : EmailParser) (parts : List PartNode),
      extract_from_parts p parts
        = String.intercalate "\n\n"
            ((parts.map (partText p)).filter (fun t => t ≠ ""))) ∧
    extract_from_parts pFail
      [.mk (some "text/plain") (some (some "QQ==")) none [],
       .mk (some "text/plain") (some (some "")) none [],
       .mk (some "text/plain") (some (some "Qg==")) none []] = "A\n\nB" := by
  constructor
  · intro p parts
    simp only [extract_from_parts]
    rw [collectTexts_filter_eq]
  · simp only [extract_from_parts, collectTexts]
    norm_num
    decide

/-- C10: a payload carrying both a non-empty direct body data string and
a parts list extracts to the decoded direct body alone, the parts being
ignored; and inside a multipart list a part that has children is
traversed for its children only, its own body and mime type being
ignored. -/
theorem extract_body_direct_body_precedence :
    (∀ (p : EmailParser) (mime : Option String) (d : String)
       (parts : List PartNode) (hdrs : List (Option String × Option String)),
      d ≠ "" →
      extract_body p (.mk mime (some (some d)) (some parts) hdrs)
        = decode_body d) ∧
    (∀ (p : EmailParser) (mime : Option String) (body : Option (Option String))
       (children : List PartNode) (hdrs : List (Option String × Option String))
       (rest : List PartNode),
      collectTexts p (.mk mime body (some children) hdrs :: rest)
        = extract_from_parts p children :: collectTexts p rest) := by
  constructor
  · intro p mime d parts hdrs hd
    simp only [extract_body, if_neg hd]
  · intro p mime body children hdrs rest
    simp only [collectTexts, extract_from_parts]

theorem dropWhile_append_of_all {α} (p : α → Bool) (l1 l2 : List α)
    (h : ∀ c ∈ l1, p c) : (l1 ++ l2).dropWhile p = l2.dropWhile p := by
  induction l1 with
  | nil => rfl
  | cons a t ih =>
    rw [List.cons_append, List.dropWhile_cons, if_pos (h a (List.mem_cons_self a t))]
    exact ih (fun c hc => h c (List.mem_cons_of_mem _ hc))

theorem dropWhile_head_not {α} (p : α → Bool) (l : List α) :
    ∀ c t, l.dropWhile p = c :: t → ¬ p c := by
  induction l with
  | nil => intro c t h; cases h
  | cons a l ih =>
    intro c t h
    rw [List.dropWhile_cons] at h
    by_cases hp : p a
    · rw [if_pos hp] at h
      exact ih c t h
    · rw [if_neg hp] at h
      cases h
      exact hp

theorem head_dropWhile_append_ne_lt (l1 l2 : List Char)
    (hex : ∃ x ∈ l1, ¬ isPyWs x) (hlt : ∀ x ∈ l1, x ≠ '<') :
    ((l1 ++ l2).dropWhile isPyWs).head? ≠ some '<' := by
  induction l1 with
  | nil =>
    rcases hex with ⟨x, hx, _⟩
    cases hx
  | cons a t ih =>
    rw [List.cons_append, List.dropWhile_cons]
    by_cases hp : isPyWs a
    · rw [if_pos hp]
      refine ih ?_ (fun x hx => hlt x (List.mem_cons_of_mem _ hx))
      rcases hex with ⟨x, hx, hnx⟩
      rcases List.mem_cons.mp hx with rfl | hx2
      · exact absurd hp hnx
      · exact ⟨x, hx2, hnx⟩
    · rw [if_neg hp]
      intro hcontra
      exact hlt a (List.mem_cons_self a t) (by injection hcontra)

theorem senderNameGo_match (clast : Char) (wsuf rest : List Char)
    (hcl : ¬ isPyWs clast) (hws : ∀ c ∈ wsuf, isPyWs c) :
    ∀ (core0 acc : List Char),
    (∀ c ∈ core0 ++ [clast], c.toNat ≠ 10) →
    (∀ c ∈ core0 ++ [clast], c ≠ '<') →
    senderNameGo acc (core0 ++ [clast] ++ wsuf ++ '<' :: rest)
      = some (acc ++ (core0 ++ [clast])) := by
  intro core0
  induction core0 with
  | nil =>
    intro acc hnl _
    have hshape : ([] : List Char) ++ [clast] ++ wsuf ++ '<' :: rest
        = clast :: (wsuf ++ '<' :: rest) := by simp
    rw [hshape]
    have hcond : ((wsuf ++ '<' :: rest).dropWhile isPyWs).head? = some '<' := by
      rw [dropWhile_append_of_all isPyWs wsuf ('<' :: rest) hws, List.dropWhile_cons,
        if_neg (by decide : ¬ isPyWs '<' = true)]
      rfl
    simp only [senderNameGo]
    rw [if_neg (hnl clast (by simp)), if_pos hcond]
    simp
  | cons a t ih =>
    intro acc hnl hlt
    have hstep : (a :: t) ++ [clast] ++ wsuf ++ '<' :: rest
        = a :: (t ++ [clast] ++ wsuf ++ '<' :: rest) := by simp
    rw [hstep]
    simp only [senderNameGo]
    rw [if_neg (hnl a (by simp)),
      if_neg (by
        have := head_dropWhile_append_ne_lt (t ++ [clast]) (wsuf ++ '<' :: rest)
          ⟨clast, by simp, hcl⟩
          (fun x hx => hlt x (by
            rcases List.mem_append.mp hx with h1 | h1
            · exact List.mem_append.mpr (Or.inl (List.mem_cons_of_mem _ h1))
            · exact List.mem_append.mpr (Or.inr h1)))
        simpa using this)]
    rw [ih (acc ++ [a])
      (fun c hc => hnl c (by
        rcases List.mem_append.mp hc with h1 | h1
        · exact List.mem_append.mpr (Or.inl (List.mem_cons_of_mem _ h1))
        · exact List.mem_append.mpr (Or.inr h1)))
      (fun c hc => hlt c (by
        rcases List.mem_append.mp hc with h1 | h1
        · exact List.mem_append.mpr (Or.inl (List.mem_cons_of_mem _ h1))
        · exact List.mem_append.mpr (Or.inr h1)))]
    simp

theorem senderNameGo_none (l : List Char) (hlt : '<' ∉ l) :
    ∀ acc, senderNameGo acc l = none := by
  induction l with
  | nil => intro acc; rfl
  | cons a t ih =>
    intro acc
    simp only [senderNameGo]
    by_cases h10 : a.toNat = 10
    · rw [if_pos h10]
    · rw [if_neg h10, if_neg (fun hc : (t.dropWhile isPyWs).head? = some '<' =>
        hlt (List.mem_cons_of_mem _
          ((List.dropWhile_sublist isPyWs).subset (List.mem_of_mem_head? hc))))]
      exact ih (fun hm => hlt (List.mem_cons_of_mem _ hm)) (acc ++ [a])

/-- C8 as stated is false when nothing precedes the first angle bracket:
the text before the first opening angle bracket of the sender string
that is just an address in brackets is empty, yet the function returns
the whole string, because the regex group requires at least one
character. -/
theorem extract_sender_name_counterexample :
    extract_sender_name "<jane@example.com>" = "<jane@example.com>" ∧
    ("<jane@example.com>" : String) ≠ "" :=
  ⟨by decide, by decide⟩

/-- C8 amended: when the sender contains an opening angle bracket and
the text before the first one has no newline and does not consist
entirely of whitespace, the result is that text with trailing
whitespace removed and surrounding double quotes stripped; when no
angle bracket is present the whole string is returned unchanged; and
the quoted Jane Doe example yields Jane Doe. -/
theorem extract_sender_name_amended :
    (∀ (pre rest : List Char), '<' ∉ pre → (∀ c ∈ pre, c.toNat ≠ 10) →
      pyRStrip pre ≠ [] →
      extract_sender_name (String.mk (pre ++ '<' :: rest))
        = String.mk (pyStripChar '"' (pyRStrip pre))) ∧
    (∀ s : String, '<' ∉ s.data → extract_sender_name s = s) ∧
    extract_sender_name "\"Jane Doe\" <jane@example.com>" = "Jane Doe" := by
  refine ⟨?_, ?_, by decide⟩
  · intro pre rest hlt hnl hne
    cases hdw : pre.reverse.dropWhile isPyWs with
    | nil => exact absurd (by simp [pyRStrip, hdw]) hne
    | cons c t =>
      have hc : ¬ isPyWs c := dropWhile_head_not isPyWs pre.reverse c t hdw
      have hcore : pyRStrip pre = t.reverse ++ [c] := by
        simp [pyRStrip, hdw]
      have hdecomp : pre
          = (t.reverse ++ [c]) ++ (pre.reverse.takeWhile isPyWs).reverse := by
        have h1 := List.takeWhile_append_dropWhile isPyWs pre.reverse
        have h2 := congrArg List.reverse h1
        rw [List.reverse_append, List.reverse_reverse, hdw, List.reverse_cons] at h2
        exact h2.symm
      have hws : ∀ x ∈ (pre.reverse.takeWhile isPyWs).reverse, isPyWs x := by
        intro x hx
        exact List.mem_takeWhile_imp (List.mem_reverse.mp hx)
      have hmempre : ∀ x ∈ t.reverse ++ [c], x ∈ pre := by
        intro x hx
        rw [hdecomp]
        exact List.mem_append.mpr (Or.inl hx)
      have hmatch := senderNameGo_match c ((pre.reverse.takeWhile isPyWs).reverse)
        rest hc hws t.reverse []
        (fun x hx => hnl x (hmempre x hx))
        (fun x hx he => hlt (he ▸ hmempre x hx))
      have hdata : pre ++ '<' :: rest
          = t.reverse ++ [c] ++ (pre.reverse.takeWhile isPyWs).reverse
              ++ '<' :: rest := by
        conv_lhs => rw [hdecomp]
      simp only [extract_sender_name]
      rw [hdata, hmatch]
      simp [hcore]
  · intro s hlt
    simp only [extract_sender_name, senderNameGo_none s.data hlt []]

theorem extract_sender_name_amended_witness :
    extract_sender_name (String.mk (("ab ").data ++ '<' :: ("x>").data))
      = String.mk (pyStripChar '"' (pyRStrip ("ab ").data)) ∧
    extract_sender_name "no angle here" = "no angle here" :=
  ⟨extract_sender_name_amended.1 ("ab ").data ("x>").data (by decide) (by decide)
      (by decide),
   extract_sender_name_amended.2.1 "no angle here" (by decide)⟩

/-- C2 as stated is false at the top level: a payload whose single leaf
has mime type image/png, no children and non-empty body data extracts
to the decoded data, not the empty string, because `extract_body`
returns any non-empty direct body without looking at the mime type. -/
theorem extract_body_unknown_mime_counterexample :
    extract_body pFail (.mk (some "image/png") (some (some "SA==")) none []) = "H" ∧
    ("H" : String) ≠ "" :=
  ⟨by decide, by decide⟩

/-- C2 amended: inside a multipart parts list a childless leaf whose
mime type is neither text/plain nor text/html contributes nothing; but
at top level `extract_body` ignores the mime type entirely, returning
any non-empty direct body data decoded, and only a payload with no
usable body data and no parts yields the empty string. -/
theorem extract_body_unknown_mime_amended :
    (∀ (p : EmailParser) (mime : Option String) (body : Option (Option String))
       (hdrs : List (Option String × Option String)) (rest : List PartNode),
      mime.getD "" ≠ "text/plain" → mime.getD "" ≠ "text/html" →
      collectTexts p (.mk mime body none hdrs :: rest) = collectTexts p rest) ∧
    (∀ (p : EmailParser) (mime : Option String) (d : String)
       (hdrs : List (Option String × Option String)),
      d ≠ "" →
      extract_body p (.mk mime (some (some d)) none hdrs) = decode_body d) ∧
    (∀ (p : EmailParser) (mime : Option String)
       (hdrs : List (Option String × Option String)),
      extract_body p (.mk mime none none hdrs) = "") := by
  refine ⟨?_, ?_, fun p mime hdrs => rfl⟩
  · intro p mime body hdrs rest h1 h2
    have hm : ¬(mime.getD "" = "text/plain" ∨ mime.getD "" = "text/html") := by
      tauto
    cases body with
    | some od =>
      cases od with
      | some d => rw [collectTexts.eq_3, if_neg hm]
      | none =>
        rw [collectTexts.eq_4 p mime (some none) hdrs rest
          (by intro d h; simp at h), ite_self]
    | none =>
      rw [collectTexts.eq_4 p mime none hdrs rest
        (by intro d h; simp at h), ite_self]
  · intro p mime d hdrs hd
    simp only [extract_body, if_neg hd]

theorem extract_body_unknown_mime_amended_witness :
    collectTexts pFail [.mk (some "application/pdf") (some (some "QQ==")) none []]
      = collectTexts pFail [] ∧
    extract_body pFail (.mk (some "application/pdf") (some (some "QQ==")) none [])
      = decode_body "QQ==" ∧
    extract_body pFail (.mk (some "application/pdf") none none []) = "" :=
  ⟨extract_body_unknown_mime_amended.1 pFail _ _ [] [] (by decide) (by decide),
   extract_body_unknown_mime_amended.2.1 pFail _ "QQ==" [] (by decide),
   extract_body_unknown_mime_amended.2.2 pFail _ []⟩

/-- C3 as stated is false at the top level: a text/html payload with
direct body data is returned decoded but never passed through the
HTML-to-text converter, even when the converter succeeds. -/
theorem extract_body_html_top_level_counterexample :
    extract_body pConv (.mk (some "text/html") (some (some "SA==")) none []) = "H" ∧
    EmailParser.clean_html pConv "H" = "CONVERTED:H" ∧
    ("H" : String) ≠ "CONVERTED:H" :=
  ⟨by decide, by decide, by decide⟩

/-- C3 amended: inside a multipart parts list every text/html leaf with
body data contributes its decoded text passed through the converter,
and when the converter raises, `clean_html` returns its input — the
base64-decoded HTML string, never the empty string; but a text/html
payload at top level is returned decoded without conversion. -/
theorem extract_body_html_conversion_amended :
    (∀ (p : EmailParser) (d : String)
       (hdrs : List (Option String × Option String)) (rest : List PartNode),
      collectTexts p (.mk (some "text/html") (some (some d)) none hdrs :: rest)
        = p.clean_html (decode_body d) :: collectTexts p rest) ∧
    (∀ (p : EmailParser) (h : String), p.html_converter h = .error () →
      p.clean_html h = h) ∧
    (∀ (p : EmailParser) (d : String)
       (hdrs : List (Option String × Option String)),
      d ≠ "" →
      extract_body p (.mk (some "text/html") (some (some d)) none hdrs)
        = decode_body d) := by
  refine ⟨?_, ?_, ?_⟩
  · intro p d hdrs rest
    rw [collectTexts.eq_3,
      if_pos (show (some "text/html").getD "" = "text/plain" ∨
          (some "text/html").getD "" = "text/html" from Or.inr rfl),
      if_pos (show (some "text/html").getD "" = "text/html" from rfl)]
  · intro p h herr
    simp [clean_html, herr]
  · intro p d hdrs hd
    simp only [extract_body, if_neg hd]

theorem extract_body_html_conversion_amended_witness :
    collectTexts pFail [.mk (some "text/html") (some (some "SA==")) none []]
      = EmailParser.clean_html pFail (decode_body "SA==") :: collectTexts pFail [] ∧
    EmailParser.clean_html pFail "<b>hi</b>" = "<b>hi</b>" ∧
    extract_body pConv (.mk (some "text/html") (some (some "Qg==")) none [])
      = decode_body "Qg==" :=
  ⟨extract_body_html_conversion_amended.1 pFail "SA==" [] [],
   extract_body_html_conversion_amended.2.1 pFail "<b>hi</b>" rfl,
   extract_body_html_conversion_amended.2.2 pConv "Qg==" [] (by decide)⟩

/-- C4 as stated is false for invalid UTF-8: the string Qf9C is valid
URL-safe base64 for the bytes 65, 255, 66, and decoding with the ignore
policy drops only the invalid byte, so the leaf contributes the partial
string AB rather than the empty string. -/
theorem decode_body_invalid_utf8_counterexample :
    decode_body "Qf9C" = "AB" ∧ ("AB" : String) ≠ "" :=
  ⟨by decide, by decide⟩

/-- C4 amended: `decode_body` never raises; when the URL-safe base64
decode itself fails the leaf contributes exactly the empty string (as
for the not-base64 probe string); when the base64 decode succeeds the
bytes are decoded as UTF-8 with the ignore policy, which drops invalid
sequences and so may contribute a partial string rather than an empty
one. -/
theorem decode_body_fault_amended :
    (∀ (e msg : String), urlsafeB64decode e = .error msg →
      decode_body e = "") ∧
    decode_body "!!!not-base64!!!" = "" ∧
    (∀ (e : String) (bytes : List Nat), urlsafeB64decode e = .ok bytes →
      decode_body e = String.mk ((utf8DecodeIgnore bytes).map Char.ofNat)) := by
  refine ⟨?_, by decide, ?_⟩
  · intro e msg h
    simp [decode_body, h]
  · intro e bytes h
    simp [decode_body, h]

theorem decode_body_fault_amended_witness :
    decode_body "QQ" = "" ∧
    decode_body "Qf9C\x80"
      = "" ∧
    decode_body "QUJD"
      = String.mk ((utf8DecodeIgnore [65, 66, 67]).map Char.ofNat) :=
  ⟨decode_body_fault_amended.1 "QQ" "incorrect padding" rfl,
   decode_body_fault_amended.1 "Qf9C\x80"
     "string argument should contain only ASCII characters" rfl,
   decode_body_fault_amended.2.2 "QUJD" [65, 66, 67] rfl⟩

theorem extract_body_direct_body_precedence_witness :
    extract_body pFail (.mk (some "image/gif") (some (some "SA=="))
        (some [.mk (some "text/plain") (some (some "QQ==")) none []]) [])
      = decode_body "SA==" ∧
    collectTexts pFail
        [.mk (some "text/plain") (some (some "QQ==")) (some []) []]
      = extract_from_parts pFail [] :: collectTexts pFail [] :=
  ⟨extract_body_direct_body_precedence.1 pFail _ "SA==" _ _ (by decide),
   extract_body_direct_body_precedence.2 pFail _ _ [] [] []⟩

theorem b64_char_props : ∀ d : Nat, d < 64 →
    b64DigitVal (b64Translate (b64CharUrl d)) = some d ∧
    b64Translate (b64CharUrl d) ≠ '=' ∧
    (b64CharUrl d).toNat ≤ 127 := by decide

theorem b64CharUrl_ascii (n : Nat) : (b64CharUrl n).toNat ≤ 127 := by
  by_cases h : n < 64
  · exact (b64_char_props n h).2.2
  · rw [b64CharUrl, List.getD_eq_default]
    · decide
    · rw [show b64UrlAlphabet.length = 64 from rfl]
      omega

theorem encode_all_ascii (bs : List Nat) :
    (urlsafeB64encode bs).all (fun c => c.toNat ≤ 127) = true := by
  induction bs using urlsafeB64encode.induct with
  | case1 => rfl
  | case2 a =>
    simp only [urlsafeB64encode, List.all_cons, List.all_nil,
      Bool.and_eq_true, decide_eq_true_eq]
    refine ⟨b64CharUrl_ascii _, b64CharUrl_ascii _, by decide, by decide, trivial⟩
  | case3 a b =>
    simp only [urlsafeB64encode, List.all_cons, List.all_nil,
      Bool.and_eq_true, decide_eq_true_eq]
    refine ⟨b64CharUrl_ascii _, b64CharUrl_ascii _, b64CharUrl_ascii _,
      by decide, trivial⟩
  | case4 a b c rest ih =>
    simp only [urlsafeB64encode, List.all_cons, Bool.and_eq_true,
      decide_eq_true_eq]
    exact ⟨b64CharUrl_ascii _, b64CharUrl_ascii _, b64CharUrl_ascii _,
      b64CharUrl_ascii _, ih⟩

theorem a2bGo_digit0 (ch : Char) (rest : List Char) (left pads : Nat)
    (acc : List Nat) (d : Nat) (hne : ch ≠ '=') (hd : b64DigitVal ch = some d) :
    a2bBase64Go (ch :: rest) 0 left pads acc = a2bBase64Go rest 1 d 0 acc := by
  simp only [a2bBase64Go, if_neg hne, hd]

theorem a2bGo_digit1 (ch : Char) (rest : List Char) (left pads : Nat)
    (acc : List Nat) (d : Nat) (hne : ch ≠ '=') (hd : b64DigitVal ch = some d) :
    a2bBase64Go (ch :: rest) 1 left pads acc
      = a2bBase64Go rest 2 (d % 16) 0 ((left * 4 + d / 16) :: acc) := by
  simp only [a2bBase64Go, if_neg hne, hd]

theorem a2bGo_digit2 (ch : Char) (rest : List Char) (left pads : Nat)
    (acc : List Nat) (d : Nat) (hne : ch ≠ '=') (hd : b64DigitVal ch = some d) :
    a2bBase64Go (ch :: rest) 2 left pads acc
      = a2bBase64Go rest 3 (d % 4) 0 ((left * 16 + d / 4) :: acc) := by
  simp only [a2bBase64Go, if_neg hne, hd]

theorem a2bGo_digit3 (ch : Char) (rest : List Char) (left pads : Nat)
    (acc : List Nat) (d : Nat) (hne : ch ≠ '=') (hd : b64DigitVal ch = some d) :
    a2bBase64Go (ch :: rest) 3 left pads acc
      = a2bBase64Go rest 0 0 0 ((left * 64 + d) :: acc) := by
  simp only [a2bBase64Go, if_neg hne, hd]

theorem a2bGo_cons_pad (rest : List Char) (q left pads : Nat) (acc : List Nat) :
    a2bBase64Go ('=' :: rest) q left pads acc
      = if 2 ≤ q then
          if 4 ≤ q + (pads + 1) then .ok acc.reverse
          else a2bBase64Go rest q left (pads + 1) acc
        else a2bBase64Go rest q left pads acc := by
  simp [a2bBase64Go]

theorem a2b_encode (bs : List Nat) :
    ∀ acc : List Nat, (∀ b ∈ bs, b < 256) →
    a2bBase64Go ((urlsafeB64encode bs).map b64Translate) 0 0 0 acc
      = .ok (acc.reverse ++ bs) := by
  induction bs using urlsafeB64encode.induct with
  | case1 =>
    intro acc _
    simp [a2bBase64Go]
  | case2 a =>
    intro acc hlt
    have ha : a < 256 := hlt a (by simp)
    obtain ⟨hd0, hne0, _⟩ := b64_char_props (a / 4) (by omega)
    obtain ⟨hd1, hne1, _⟩ := b64_char_props (a % 4 * 16) (by omega)
    simp only [urlsafeB64encode, List.map_cons, List.map_nil,
      show b64Translate '=' = '=' from rfl]
    rw [a2bGo_digit0 _ _ _ _ _ _ hne0 hd0]
    rw [a2bGo_digit1 _ _ _ _ _ _ hne1 hd1]
    rw [a2bGo_cons_pad, if_pos (by omega), if_neg (by omega),
      a2bGo_cons_pad, if_pos (by omega), if_pos (by omega)]
    rw [show a / 4 * 4 + a % 4 * 16 / 16 = a by omega]
    simp
  | case3 a b =>
    intro acc hlt
    have ha : a < 256 := hlt a (by simp)
    have hb : b < 256 := hlt b (by simp)
    obtain ⟨hd0, hne0, _⟩ := b64_char_props (a / 4) (by omega)
    obtain ⟨hd1, hne1, _⟩ := b64_char_props (a % 4 * 16 + b / 16) (by omega)
    obtain ⟨hd2, hne2, _⟩ := b64_char_props (b % 16 * 4) (by omega)
    simp only [urlsafeB64encode, List.map_cons, List.map_nil,
      show b64Translate '=' = '=' from rfl]
    rw [a2bGo_digit0 _ _ _ _ _ _ hne0 hd0]
    rw [a2bGo_digit1 _ _ _ _ _ _ hne1 hd1]
    rw [a2bGo_digit2 _ _ _ _ _ _ hne2 hd2]
    rw [a2bGo_cons_pad, if_pos (by omega), if_pos (by omega)]
    rw [show a / 4 * 4 + (a % 4 * 16 + b / 16) / 16 = a by omega,
      show (a % 4 * 16 + b / 16) % 16 * 16 + b % 16 * 4 / 4 = b by omega]
    simp
  | case4 a b c rest ih =>
    intro acc hlt
    have ha : a < 256 := hlt a (by simp)
    have hb : b < 256 := hlt b (by simp)
    have hc : c < 256 := hlt c (by simp)
    obtain ⟨hd0, hne0, _⟩ := b64_char_props (a / 4) (by omega)
    obtain ⟨hd1, hne1, _⟩ := b64_char_props (a % 4 * 16 + b / 16) (by omega)
    obtain ⟨hd2, hne2, _⟩ := b64_char_props (b % 16 * 4 + c / 64) (by omega)
    obtain ⟨hd3, hne3, _⟩ := b64_char_props (c % 64) (by omega)
    simp only [urlsafeB64encode, List.map_cons]
    rw [a2bGo_digit0 _ _ _ _ _ _ hne0 hd0]
    rw [a2bGo_digit1 _ _ _ _ _ _ hne1 hd1]
    rw [a2bGo_digit2 _ _ _ _ _ _ hne2 hd2]
    rw [a2bGo_digit3 _ _ _ _ _ _ hne3 hd3]
    rw [show a / 4 * 4 + (a % 4 * 16 + b / 16) / 16 = a by omega,
      show (a % 4 * 16 + b / 16) % 16 * 16 + (b % 16 * 4 + c / 64) / 4 = b by omega,
      show (b % 16 * 4 + c / 64) % 4 * 64 + c % 64 = c by omega]
    rw [ih (c :: b :: a :: acc) (fun x hx => hlt x (by simp [hx]))]
    simp

theorem urlsafe_roundtrip (bs : List Nat) (h : ∀ b ∈ bs, b < 256) :
    urlsafeB64decode (String.mk (urlsafeB64encode bs)) = .ok bs := by
  simp only [urlsafeB64decode]
  rw [if_pos (encode_all_ascii bs), a2b_encode bs [] h]
  rfl

theorem utf8EncodeCp_lt (n : Nat) (h : n < 1114112) :
    ∀ b ∈ utf8EncodeCp n, b < 256 := by
  intro b hb
  by_cases h1 : n ≤ 127
  · unfold utf8EncodeCp at hb
    rw [if_pos h1] at hb
    simp at hb
    omega
  · by_cases h2 : n ≤ 2047
    · unfold utf8EncodeCp at hb
      rw [if_neg h1, if_pos h2] at hb
      simp at hb
      rcases hb with rfl | rfl <;> omega
    · by_cases h3 : n ≤ 65535
      · unfold utf8EncodeCp at hb
        rw [if_neg h1, if_neg h2, if_pos h3] at hb
        simp at hb
        rcases hb with rfl | rfl | rfl <;> omega
      · unfold utf8EncodeCp at hb
        rw [if_neg h1, if_neg h2, if_neg h3] at hb
        simp at hb
        rcases hb with rfl | rfl | rfl | rfl <;> omega

theorem utf8Dec_1byte (b : Nat) (rest : List Nat) (h : b ≤ 127) :
    utf8DecodeIgnore (b :: rest) = b :: utf8DecodeIgnore rest := by
  conv_lhs => rw [utf8DecodeIgnore.eq_def]
  simp only [if_pos h]

theorem utf8Dec_2byte (b b1 : Nat) (rest : List Nat)
    (h1 : ¬ b ≤ 127) (h2 : (194 ≤ b && b ≤ 223) = true)
    (h3 : isCont b1 = true) :
    utf8DecodeIgnore (b :: b1 :: rest)
      = ((b - 192) * 64 + (b1 - 128)) :: utf8DecodeIgnore rest := by
  conv_lhs => rw [utf8DecodeIgnore.eq_def]
  simp [if_neg h1, h2, h3]

theorem utf8Dec_3byte (b b1 b2 : Nat) (rest : List Nat)
    (h1 : ¬ b ≤ 127) (hno2 : (194 ≤ b && b ≤ 223) = false)
    (h3 : (224 ≤ b && b ≤ 239) = true)
    (hc1 : (if b = 224 then 160 ≤ b1 && b1 ≤ 191
            else if b = 237 then 128 ≤ b1 && b1 ≤ 159
            else isCont b1) = true)
    (hc2 : isCont b2 = true) :
    utf8DecodeIgnore (b :: b1 :: b2 :: rest)
      = ((b - 224) * 4096 + (b1 - 128) * 64 + (b2 - 128))
          :: utf8DecodeIgnore rest := by
  conv_lhs => rw [utf8DecodeIgnore.eq_def]
  simp [if_neg h1, hno2, h3, hc1, hc2]

theorem utf8Dec_4byte (b b1 b2 b3 : Nat) (rest : List Nat)
    (h1 : ¬ b ≤ 127) (hno2 : (194 ≤ b && b ≤ 223) = false)
    (hno3 : (224 ≤ b && b ≤ 239) = false)
    (h4 : (240 ≤ b && b ≤ 244) = true)
    (hc1 : (if b = 240 then 144 ≤ b1 && b1 ≤ 191
            else if b = 244 then 128 ≤ b1 && b1 ≤ 143
            else isCont b1) = true)
    (hc2 : isCont b2 = true) (hc3 : isCont b3 = true) :
    utf8DecodeIgnore (b :: b1 :: b2 :: b3 :: rest)
      = ((b - 240) * 262144 + (b1 - 128) * 4096 + (b2 - 128) * 64 + (b3 - 128))
          :: utf8DecodeIgnore rest := by
  conv_lhs => rw [utf8DecodeIgnore.eq_def]
  simp [if_neg h1, hno2, hno3, h4, hc1, hc2, hc3]

theorem utf8_cp_roundtrip (n : Nat)
    (hv : n < 55296 ∨ (57343 < n ∧ n < 1114112)) :
    ∀ rest : List Nat,
    utf8DecodeIgnore (utf8EncodeCp n ++ rest) = n :: utf8DecodeIgnore rest := by
  intro rest
  by_cases h1 : n ≤ 127
  · have henc : utf8EncodeCp n = [n] := by
      unfold utf8EncodeCp
      rw [if_pos h1]
    rw [henc, List.cons_append, List.nil_append, utf8Dec_1byte n rest h1]
  · by_cases h2 : n ≤ 2047
    · have henc : utf8EncodeCp n = [192 + n / 64, 128 + n % 64] := by
        unfold utf8EncodeCp
        rw [if_neg h1, if_pos h2]
      rw [henc]
      simp only [List.cons_append, List.nil_append]
      rw [utf8Dec_2byte _ _ _ (by omega)
        (by simp only [Bool.and_eq_true, decide_eq_true_eq]; omega)
        (by simp only [isCont, Bool.and_eq_true, decide_eq_true_eq]; omega)]
      rw [show (192 + n / 64 - 192) * 64 + (128 + n % 64 - 128) = n from by omega]
    · by_cases h3 : n ≤ 65535
      · have henc : utf8EncodeCp n
            = [224 + n / 4096, 128 + n / 64 % 64, 128 + n % 64] := by
          unfold utf8EncodeCp
          rw [if_neg h1, if_neg h2, if_pos h3]
        rw [henc]
        simp only [List.cons_append, List.nil_append]
        rw [utf8Dec_3byte _ _ _ _ (by omega)
          (by simp; omega)
          (by simp only [Bool.and_eq_true, decide_eq_true_eq]; omega)
          (by
            by_cases hq0 : 224 + n / 4096 = 224
            · rw [if_pos hq0]
              simp only [Bool.and_eq_true, decide_eq_true_eq]
              omega
            · rw [if_neg hq0]
              by_cases hqd : 224 + n / 4096 = 237
              · rw [if_pos hqd]
                simp only [Bool.and_eq_true, decide_eq_true_eq]
                omega
              · rw [if_neg hqd]
                simp only [isCont, Bool.and_eq_true, decide_eq_true_eq]
                omega)
          (by simp only [isCont, Bool.and_eq_true, decide_eq_true_eq]; omega)]
        rw [show (224 + n / 4096 - 224) * 4096 + (128 + n / 64 % 64 - 128) * 64 +
            (128 + n % 64 - 128) = n from by omega]
      · have henc : utf8EncodeCp n
            = [240 + n / 262144, 128 + n / 4096 % 64, 128 + n / 64 % 64,
               128 + n % 64] := by
          unfold utf8EncodeCp
          rw [if_neg h1, if_neg h2, if_neg h3]
        rw [henc]
        simp only [List.cons_append, List.nil_append]
        rw [utf8Dec_4byte _ _ _ _ _ (by omega)
          (by simp; omega)
          (by simp; omega)
          (by simp only [Bool.and_eq_true, decide_eq_true_eq]; omega)
          (by
            by_cases hq0 : 240 + n / 262144 = 240
            · rw [if_pos hq0]
              simp only [Bool.and_eq_true, decide_eq_true_eq]
              omega
            · rw [if_neg hq0]
              by_cases hqd : 240 + n / 262144 = 244
              · rw [if_pos hqd]
                simp only [Bool.and_eq_true, decide_eq_true_eq]
                omega
              · rw [if_neg hqd]
                simp only [isCont, Bool.and_eq_true, decide_eq_true_eq]
                omega)
          (by simp only [isCont, Bool.and_eq_true, decide_eq_true_eq]; omega)
          (by simp only [isCont, Bool.and_eq_true, decide_eq_true_eq]; omega)]
        rw [show (240 + n / 262144 - 240) * 262144 + (128 + n / 4096 % 64 - 128)
            * 4096 + (128 + n / 64 % 64 - 128) * 64 + (128 + n % 64 - 128) = n
          from by omega]

theorem char_valid_ranges (c : Char) :
    c.toNat < 55296 ∨ (57343 < c.toNat ∧ c.toNat < 1114112) :=
  c.valid

theorem utf8Encode_decode (cs : List Char) :
    ∀ rest : List Nat,
    utf8DecodeIgnore ((cs.map (fun c => utf8EncodeCp c.toNat)).flatten ++ rest)
      = cs.map Char.toNat ++ utf8DecodeIgnore rest := by
  induction cs with
  | nil => intro rest; simp
  | cons c cs ih =>
    intro rest
    simp only [List.map_cons, List.flatten_cons, List.append_assoc]
    rw [utf8_cp_roundtrip c.toNat (char_valid_ranges c), ih rest, List.cons_append]

theorem utf8Encode_lt (t : String) : ∀ b ∈ utf8Encode t, b < 256 := by
  intro b hb
  unfold utf8Encode at hb
  rw [List.mem_flatten] at hb
  obtain ⟨l, hl, hbl⟩ := hb
  rw [List.mem_map] at hl
  obtain ⟨c, _, rfl⟩ := hl
  have hval : c.toNat < 1114112 := by
    rcases char_valid_ranges c with h | ⟨_, h⟩ <;> omega
  exact utf8EncodeCp_lt c.toNat hval b hbl

/-- C9: encoding any text as UTF-8 bytes, URL-safe base64 encoding the
bytes and feeding the result to `decode_body` recovers the text exactly
— the decoder inverts the encoder on every valid input. -/
theorem decode_body_roundtrip (t : String) :
    decode_body (String.mk (urlsafeB64encode (utf8Encode t))) = t := by
  simp only [decode_body, urlsafe_roundtrip (utf8Encode t) (utf8Encode_lt t)]
  have hdec : utf8DecodeIgnore (utf8Encode t) = t.data.map Char.toNat := by
    unfold utf8Encode
    have h0 := utf8Encode_decode t.data []
    rw [List.append_nil, show utf8DecodeIgnore [] = [] from rfl,
      List.append_nil] at h0
    exact h0
  rw [hdec, List.map_map]
  rw [show t.data.map (Char.ofNat ∘ Char.toNat) = t.data from by
    simp [Function.comp_def, Char.ofNat_toNat]]

/-- C1: `parse_message` is total and produces a well-formed record for
every parser behavior (including an HTML converter and a date parser
that always raise) and every message dictionary, however malformed:
identifiers and snippet pass through with empty defaults, the subject,
sender and recipient take their documented defaults when the header is
absent, the body is the extraction of the payload, and the date field
is either the empty string or the ISO form of a successfully parsed
date header — no error case is left over, since `decode_body`,
`clean_html` and `parse_date` absorb the failures of the operations
they wrap. -/
theorem parse_message_total (p : EmailParser) (m : Message) :
    (parse_message p m).id = m.id.getD "" ∧
    (parse_message p m).thread_id = m.threadId.getD "" ∧
    (parse_message p m).snippet = m.snippet.getD "" ∧
    (parse_message p m).subject
      = (dictGet (extract_headers m.headersList) "subject").getD "No Subject" ∧
    (parse_message p m).sender
      = (dictGet (extract_headers m.headersList) "from").getD "Unknown" ∧
    (parse_message p m).toAddr
      = (dictGet (extract_headers m.headersList) "to").getD "" ∧
    (parse_message p m).body
      = extract_body p (m.payload.getD (.mk none none none [])) ∧
    ((parse_message p m).date = "" ∨
      p.parse_date ((dictGet (extract_headers m.headersList) "date").getD "")
        = some (parse_message p m).date) := by
  refine ⟨rfl, rfl, rfl, rfl, rfl, rfl, rfl, ?_⟩
  rcases hp : m.payload.getD (PartNode.mk none none none []) with ⟨mt, bd, pts, hs⟩
  have hhl : m.headersList = hs := by
    simp only [Message.headersList, hp]
  rw [hhl]
  by_cases hds : (dictGet (extract_headers hs) "date").getD "" = ""
  · left
    simp [parse_message, hp, hds]
  · cases hpd : p.parse_date ((dictGet (extract_headers hs) "date").getD "") with
    | none =>
      left
      simp [parse_message, hp, hds, hpd]
    | some d =>
      right
      simp [parse_message, hp, hds, hpd]

end EmailAgent
